import Mathlib

/-
Verification of the Home-Streak habit tracker core (habits, users, streaks,
leaderboard, persistence orchestration) as a shallow embedding in Lean 4.

Conventions of the embedding:
* Python dicts become insertion-ordered association lists (`List (key × value)`);
  `lookup` mirrors `d[k]` / `d.get(k)` and `upsert` mirrors `d[k] = v`
  (in-place update of an existing key, append for a new key).
* Calendar dates become integers counting days (subtracting two dates yields
  the day gap, exactly as `(d2 - d1).days` does on `datetime.date`).
* `datetime.now()` and its `strftime` period labels are passed in as explicit
  parameters (`today : ℤ`, `curWeek : String`, `now : String`), since the
  clock is an external collaborator of the code under specification.
* Operations that can raise (`dict[k]` on a missing key, `list[-1]` on an
  empty list) return `Option`; `none` models the uncaught Python exception.
* Machine integers are `ℤ`; Python's `%` on a positive modulus agrees with
  `Int.emod`.
-/

namespace HomeStreak

/-- Association-list lookup, mirroring Python `d.get(k)` / `k in d`
(keys of a Python dict are unique, so first match is the match). -/
def lookup {β : Type} : List (String × β) → String → Option β
  | [], _ => none
  | e :: t, k => if e.1 == k then some e.2 else lookup t k

/-- Association-list store, mirroring Python `d[k] = v`: an existing key is
updated in place (keeping its position), a new key is appended at the end. -/
def upsert {β : Type} : List (String × β) → String → β → List (String × β)
  | [], k, v => [(k, v)]
  | e :: t, k, v => if e.1 == k then (k, v) :: t else e :: upsert t k v

/-- Dropping trailing whitespace, via reverse. -/
def dropTail (l : List Char) : List Char :=
  (l.reverse.dropWhile Char.isWhitespace).reverse

/-- Python `str.strip()` on the character list: drop whitespace from the
front, then from the back. -/
def trimChars (l : List Char) : List Char :=
  dropTail (l.dropWhile Char.isWhitespace)

/-- Python `str.strip()`. -/
def strip (s : String) : String :=
  ⟨trimChars s.data⟩

/-- The `Habit` object: `name`, `periodicity`, `created_at`, `points`,
`is_bonus`, as set by `Habit.__init__`. -/
structure PyHabit where
  name : String
  periodicity : String
  created_at : String
  points : ℤ
  is_bonus : Bool
deriving DecidableEq

/-- `Habit.__init__(name, periodicity, points, is_bonus)`.  `createdAt` is
the `datetime.now().isoformat()` value, passed in explicitly.  `Except.error`
models the raised `ValueError`. -/
def habitInit (name periodicity : String) (points : ℤ) (isBonus : Bool)
    (createdAt : String) : Except String PyHabit :=
  if name == "" || strip name == "" then
    Except.error "Habit name cannot be empty"
  else if points < 0 then
    Except.error "Points cannot be negative"
  else if !(periodicity == "daily" || periodicity == "weekly") then
    Except.error "Periodicity must be either 'daily' or 'weekly'"
  else
    Except.ok ⟨strip name, periodicity, createdAt, points, isBonus⟩

/-- The dictionary produced by `Habit.to_dict`. -/
structure HabitDict where
  name : String
  periodicity : String
  created_at : String
  points : ℤ
  is_bonus : Bool
deriving DecidableEq

/-- `Habit.to_dict`. -/
def habitToDict (h : PyHabit) : HabitDict :=
  ⟨h.name, h.periodicity, h.created_at, h.points, h.is_bonus⟩

/-- `Habit.from_dict`: re-runs the constructor on the stored fields
(`created_at` is not restored; the constructor stamps a fresh one, passed
here as `now`). -/
def habitFromDict (data : HabitDict) (now : String) : Except String PyHabit :=
  habitInit data.name data.periodicity data.points data.is_bonus now

/-- The `User` object: `username`, `household` (the household name, as the
persistence layer uses it), `habits_completed` (habit name → ordered list of
completion dates), `streaks`, `bonus_claimed`, `points`. -/
structure PyUser where
  username : String
  household : String
  habits_completed : List (String × List ℤ)
  streaks : List (String × ℤ)
  bonus_claimed : List (String × String)
  points : ℤ
deriving DecidableEq

/-- `User.__init__(username, household, points=0)`. -/
def userInit (username household : String) (points : ℤ) : PyUser :=
  ⟨username, household, [], [], [], points⟩

/-- `User.has_completed_today`: `habit_name in self.habits_completed and
self.habits_completed[habit_name][-1] == today`.  `none` models the
`IndexError` raised by `[-1]` on an empty history list. -/
def hasCompletedToday (today : ℤ) (habitName : String) (u : PyUser) :
    Option Bool :=
  match lookup u.habits_completed habitName with
  | none => some false
  | some l =>
    match l.getLast? with
    | none => none
    | some d => some (d == today)

/-- The gap test of `User.update_streak`:
`(periodicity == 'daily' and delta == 1) or (periodicity == 'weekly' and delta == 7)`
where `delta = (completions[i] - completions[i - 1]).days`. -/
def gapOk (periodicity : String) (d1 d2 : ℤ) : Bool :=
  (periodicity == "daily" && d2 - d1 == 1) ||
  (periodicity == "weekly" && d2 - d1 == 7)

/-- The `for i in range(1, len(completions))` loop of `User.update_streak`:
`prev` is `completions[i-1]`, `rest` the remaining entries, `streak` the
running count. -/
def streakGo (periodicity : String) : ℤ → List ℤ → ℤ → ℤ
  | _, [], streak => streak
  | prev, d :: rest, streak =>
    streakGo periodicity d rest (if gapOk periodicity prev d then streak + 1 else 1)

/-- The streak value computed by `User.update_streak` from an ordered
completion history: `1` when fewer than two completions, otherwise the loop
starting from `streak = 1`. -/
def updateStreakVal (periodicity : String) : List ℤ → ℤ
  | [] => 1
  | c :: rest => streakGo periodicity c rest 1

/-- `User.update_streak`: reads `self.habits_completed[habit_name]` (`none`
models the `KeyError` on a missing key), stores the recomputed streak, and
adds the flat `+5` streak bonus to the user's points when the recomputed
streak is divisible by 7 (the early-return path for fewer than two
completions stores streak 1, which is never divisible by 7, so the single
conditional covers both paths of the source). -/
def updateStreakU (habitName periodicity : String) (u : PyUser) :
    Option PyUser :=
  (lookup u.habits_completed habitName).map (fun completions =>
    let s := updateStreakVal periodicity completions
    { u with
        streaks := upsert u.streaks habitName s,
        points := u.points + (if s % 7 == 0 then 5 else 0) })

/-- `User.track_completion(habit_name, date, periodicity, points=None)`:
initializes history/streak on first use, appends the date, recomputes the
streak (with its point side effect), and adds the explicit points when
given. -/
def trackCompletion (habitName : String) (date : ℤ) (periodicity : String)
    (points : Option ℤ) (u : PyUser) : Option PyUser :=
  let u1 :=
    if (lookup u.habits_completed habitName).isSome then u
    else { u with
             habits_completed := upsert u.habits_completed habitName [],
             streaks := upsert u.streaks habitName 0 }
  -- `self.habits_completed[habit_name].append(date)`: the key is present
  -- after the initialization branch, so the default list is never consulted.
  let u2 := { u1 with
                habits_completed :=
                  upsert u1.habits_completed habitName
                    ((lookup u1.habits_completed habitName).getD [] ++ [date]) }
  (updateStreakU habitName periodicity u2).map (fun u3 =>
    match points with
    | some q => { u3 with points := u3.points + q }
    | none => u3)

/-- `User.get_bonus_points(habit_name)`. -/
def getBonusPoints (habitName : String) (u : PyUser) : ℤ :=
  match lookup u.streaks habitName with
  | none => 0
  | some s => if s % 7 == 0 then 5 else 0

/-- `Habit.calculate_points(user)`: base points plus 5 when
`user.streaks.get(self.name, 0)` is divisible by 7. -/
def calculatePoints (h : PyHabit) (u : PyUser) : ℤ :=
  h.points + (if (lookup u.streaks h.name).getD 0 % 7 == 0 then 5 else 0)

/-- `Habit.complete(user)`.  `today` is `datetime.now().date()` as a day
number and `curWeek` is `today.strftime('%W-%Y')`, both passed in
explicitly.  Returns the message together with the updated user; `none`
models an uncaught exception inside the call. -/
def complete (today : ℤ) (curWeek : String) (h : PyHabit) (u : PyUser) :
    Option (String × PyUser) :=
  match hasCompletedToday today h.name u with
  | none => none
  | some true => some ("Oops! " ++ h.name ++ " has already been completed today.", u)
  | some false =>
    let claimed := h.is_bonus && lookup u.bonus_claimed h.name == some curWeek
    if claimed then
      some ("Oops! " ++ h.name ++ " has already been claimed this week.", u)
    else
      let u1 :=
        if h.is_bonus then
          { u with bonus_claimed := upsert u.bonus_claimed h.name curWeek }
        else u
      (trackCompletion h.name today h.periodicity none u1).map (fun u2 =>
        let pointsEarned := calculatePoints h u2
        ("Good job, " ++ u2.username ++ "! You completed '" ++ h.name ++
           "' and earned " ++ toString pointsEarned ++ " points.",
         { u2 with points := u2.points + pointsEarned }))

/-- Python `sorted(rankings.items(), key=lambda item: item[1], reverse=True)`:
a stable descending sort by point value. -/
def sortDesc (r : List (String × ℤ)) : List (String × ℤ) :=
  List.insertionSort (fun a b => b.2 ≤ a.2) r

instance : IsTotal (String × ℤ) (fun a b => b.2 ≤ a.2) :=
  ⟨fun a b => le_total b.2 a.2⟩

instance : IsTrans (String × ℤ) (fun a b => b.2 ≤ a.2) :=
  ⟨fun _ _ _ h1 h2 => le_trans h2 h1⟩

/-- One entry of `past_rankings`, as built by `Leaderboard.reset_monthly`:
`{"month": ..., "rankings": ..., "top_user": ..., "points": ...}`. -/
structure ArchiveEntry where
  month : String
  rankings : List (String × List (String × ℤ))
  top_user : Option String
  points : ℤ
deriving DecidableEq

/-- The leaderboard portion of the persisted document:
`data["leaderboard"]["rankings"]` and `data["leaderboard"]["past_rankings"]`. -/
structure LBState where
  rankings : List (String × List (String × ℤ))
  past_rankings : List ArchiveEntry
deriving DecidableEq

/-- `Leaderboard.get_sorted_rankings(household_name)`: a missing household is
given an empty map, an empty map returns `{}` (with a logged warning),
otherwise the map sorted descending by points. -/
def getSortedRankings (householdName : String) (lb : LBState) :
    List (String × ℤ) :=
  match lookup lb.rankings householdName with
  | none => []
  | some r => if r.isEmpty then [] else sortDesc r

/-- The top-performer scan of `Leaderboard.reset_monthly`: fold over the
users in iteration order with `if points > top_points`, starting from
`top_user, top_points = None, 0`. -/
def topAux (l : List (String × ℤ)) (acc : Option String × ℤ) :
    Option String × ℤ :=
  l.foldl (fun a e => if e.2 > a.2 then (some e.1, e.2) else a) acc

/-- The user/points pairs of the snapshot in iteration order: households in
insertion order, each household's users in the order of its (sorted)
snapshot map. -/
def iterUsers (cur : List (String × List (String × ℤ))) : List (String × ℤ) :=
  (cur.map (fun hr => hr.2)).flatten

/-- `Leaderboard.reset_monthly()`.  `now` is `datetime.now().strftime('%m-%Y')`,
passed in explicitly.  Builds the snapshot of non-empty rankings (each sorted
descending), appends one archive entry with the top performer when the
snapshot is non-empty, and unconditionally clears the current rankings.
(The `save_data` call and the in-memory aliases are the excluded persistence
plumbing; the net document change is as modelled.) -/
def resetMonthly (now : String) (lb : LBState) : LBState :=
  let cur := (lb.rankings.filter (fun hr => !hr.2.isEmpty)).map
    (fun hr => (hr.1, sortDesc hr.2))
  let past :=
    if cur.isEmpty then lb.past_rankings
    else
      let t := topAux (iterUsers cur) (none, 0)
      lb.past_rankings ++ [⟨now, cur, t.1, t.2⟩]
  ⟨[], past⟩

/-- One household record of the persisted document:
`{"members": [...], "points": {...}}`. -/
structure HouseholdRec where
  members : List String
  points : List (String × ℤ)
deriving DecidableEq

/-- The slice of the persisted document that `DataManager.complete_habit`
reads and writes (`leaderboard` is loaded and saved unchanged by this
operation: `update_leaderboard` writes to a separately loaded copy of the
document which this operation's final save overwrites, so it is not part of
the net document change). -/
structure DMState where
  households : List (String × HouseholdRec)
  habits : List HabitDict
  streaks : List (String × List (String × ℤ))
  completed_habits : List (ℤ × List (String × String))
deriving DecidableEq

/-- `dict[k] = v` for the integer-keyed `completed_habits` map. -/
def upsertI {β : Type} : List (ℤ × β) → ℤ → β → List (ℤ × β)
  | [], k, v => [(k, v)]
  | e :: t, k, v => if e.1 == k then (k, v) :: t else e :: upsertI t k v

/-- Lookup for the integer-keyed `completed_habits` map. -/
def lookupI {β : Type} : List (ℤ × β) → ℤ → Option β
  | [], _ => none
  | e :: t, k => if e.1 == k then some e.2 else lookupI t k

/-- `DataManager.complete_habit(username, habit_name)` with `today` passed in
as a day number.  Returns `some (false, s)` when the habit or the user's
household is not found, `some (true, s')` on success, and `none` for the
`KeyError` raised when the household's points map has no entry for the user.
The streak update is the unconditional
`data["streaks"][username][habit_name] += 1` of the source (initializing
missing maps to `{}`/`0` first); no completion date is consulted. -/
def dmCompleteHabit (today : ℤ) (username habitName : String)
    (s : DMState) : Option (Bool × DMState) :=
  match s.habits.find? (fun h => h.name == habitName) with
  | none => some (false, s)
  | some habit =>
    match s.households.find? (fun hh => hh.2.members.contains username) with
    | none => some (false, s)
    | some (hhName, hhRec) =>
      let userStreaks := (lookup s.streaks username).getD []
      let prev := (lookup userStreaks habitName).getD 0
      let streaks' := upsert s.streaks username
        (upsert userStreaks habitName (prev + 1))
      match lookup hhRec.points username with
      | none => none
      | some p =>
        let households' := upsert s.households hhName
          { hhRec with points := upsert hhRec.points username (p + habit.points) }
        let dayRec := (lookupI s.completed_habits today).getD []
        let completed' := upsertI s.completed_habits today
          (upsert dayRec habitName username)
        some (true, ⟨households', s.habits, streaks', completed'⟩)

/-- The states a `User` object reaches when created by the constructor and
mutated only through `track_completion` (directly, or from
`Habit.complete`). -/
inductive ReachableUser : PyUser → Prop
  | init (username household : String) (points : ℤ) :
      ReachableUser (userInit username household points)
  | track (u u' : PyUser) (habitName : String) (date : ℤ)
      (periodicity : String) (points : Option ℤ) :
      ReachableUser u →
      trackCompletion habitName date periodicity points u = some u' →
      ReachableUser u'
  | completeStep (u u' : PyUser) (today : ℤ) (curWeek msg : String)
      (h : PyHabit) :
      ReachableUser u →
      complete today curWeek h u = some (msg, u') →
      ReachableUser u'

/-- The safety invariant of claim C10: every stored history list is
non-empty and has a matching streak entry. -/
def UserInv (u : PyUser) : Prop :=
  ∀ n l, lookup u.habits_completed n = some l →
    l ≠ [] ∧ (lookup u.streaks n).isSome = true

/-- The last element of `prev :: l`. -/
def lastD : ℤ → List ℤ → ℤ
  | prev, [] => prev
  | _, b :: t => lastD b t

/-- Specification-side predicate: every adjacent gap in the list matches the
periodicity, i.e. the list is one uninterrupted run of on-cadence
completions. -/
def chainOk (periodicity : String) : List ℤ → Bool
  | [] => true
  | [_] => true
  | a :: b :: t => gapOk periodicity a b && chainOk periodicity (b :: t)

/-- Specification-side maximum point value over a user/points list, with 0
for the empty list (matching the fold base of `reset_monthly`). -/
def maxPts (l : List (String × ℤ)) : ℤ :=
  l.foldr (fun e a => max e.2 a) 0

section Lemmas

variable {β : Type}

theorem lookup_upsert_self (m : List (String × β)) (k : String) (v : β) :
    lookup (upsert m k v) k = some v := by
  induction m with
  | nil => simp [upsert, lookup]
  | cons e t ih =>
    by_cases he : e.1 == k
    · simp [upsert, lookup, he]
    · simp [upsert, lookup, he, ih]

theorem lookup_upsert_of_ne (m : List (String × β)) (k k' : String) (v : β)
    (hne : k' ≠ k) : lookup (upsert m k v) k' = lookup m k' := by
  have hk' : (k == k') = false := by
    simp [beq_iff_eq]; exact fun hh => hne hh.symm
  induction m with
  | nil => simp [upsert, lookup, hk']
  | cons e t ih =>
    by_cases he : e.1 == k
    · have hek : e.1 = k := by simpa [beq_iff_eq] using he
      have he2 : (e.1 == k') = false := by rw [hek]; exact hk'
      simp [upsert, lookup, he, he2, hk']
    · by_cases he2 : e.1 == k'
      · simp [upsert, lookup, he, he2]
      · simp [upsert, lookup, he, he2, ih]

theorem streakGo_ge_one (p : String) :
    ∀ (l : List ℤ) (prev s : ℤ), 1 ≤ s → 1 ≤ streakGo p prev l s := by
  intro l
  induction l with
  | nil => intro prev s hs; simpa [streakGo] using hs
  | cons d rest ih =>
    intro prev s hs
    simp only [streakGo]
    apply ih
    by_cases hg : gapOk p prev d
    · simp [hg]; omega
    · simp [hg]

theorem streakGo_le (p : String) :
    ∀ (l : List ℤ) (prev s : ℤ), 1 ≤ s →
      streakGo p prev l s ≤ s + l.length := by
  intro l
  induction l with
  | nil => intro prev s _; simp [streakGo]
  | cons d rest ih =>
    intro prev s hs
    simp only [streakGo]
    by_cases hg : gapOk p prev d
    · simp only [hg, if_true]
      have := ih d (s + 1) (by omega)
      simp only [List.length_cons]
      push_cast
      push_cast at this
      omega
    · simp only [hg, if_false]
      have := ih d 1 (by omega)
      simp only [List.length_cons]
      push_cast
      push_cast at this
      omega

theorem streakGo_append (p : String) (d : ℤ) :
    ∀ (l : List ℤ) (prev s : ℤ),
      streakGo p prev (l ++ [d]) s =
        if gapOk p (lastD prev l) d then streakGo p prev l s + 1 else 1 := by
  intro l
  induction l with
  | nil => intro prev s; simp [streakGo, lastD]
  | cons b t ih =>
    intro prev s
    simp only [List.cons_append, streakGo, lastD]
    exact ih b _

theorem getLast?_cons_eq_lastD (c : ℤ) :
    ∀ (rest : List ℤ), (c :: rest).getLast? = some (lastD c rest) := by
  intro rest
  induction rest generalizing c with
  | nil => rfl
  | cons b t ih => simpa [lastD] using ih b

theorem updateStreakVal_ge_one (p : String) (cs : List ℤ) :
    1 ≤ updateStreakVal p cs := by
  cases cs with
  | nil => simp [updateStreakVal]
  | cons c rest => exact streakGo_ge_one p rest c 1 (by omega)

theorem updateStreakVal_le_length (p : String) (cs : List ℤ) (h : cs ≠ []) :
    updateStreakVal p cs ≤ cs.length := by
  cases cs with
  | nil => simp at h
  | cons c rest =>
    have := streakGo_le p rest c 1 (by omega)
    simp only [updateStreakVal, List.length_cons]
    push_cast
    push_cast at this
    omega

theorem updateStreakVal_append (p : String) (cs : List ℤ) (d x : ℤ)
    (h : cs.getLast? = some x) :
    updateStreakVal p (cs ++ [d]) =
      if gapOk p x d then updateStreakVal p cs + 1 else 1 := by
  cases cs with
  | nil => simp at h
  | cons c rest =>
    have hx : x = lastD c rest := by
      have := getLast?_cons_eq_lastD c rest
      rw [this] at h
      exact (Option.some_injective _ h).symm
    subst hx
    simpa [updateStreakVal, List.cons_append] using
      streakGo_append p d rest c 1

theorem chainOk_snoc (p : String) (d : ℤ) :
    ∀ (t : List ℤ) (a : ℤ),
      chainOk p ((a :: t) ++ [d]) =
        (chainOk p (a :: t) && gapOk p (lastD a t) d) := by
  intro t
  induction t with
  | nil => intro a; simp [chainOk, lastD]
  | cons b t2 ih =>
    intro a
    have h1 : chainOk p ((a :: b :: t2) ++ [d]) =
        (gapOk p a b && chainOk p ((b :: t2) ++ [d])) := rfl
    rw [h1, ih b]
    show (gapOk p a b && (chainOk p (b :: t2) && gapOk p (lastD b t2) d)) =
      ((gapOk p a b && chainOk p (b :: t2)) && gapOk p (lastD b t2) d)
    rw [Bool.and_assoc]

theorem getLast?_drop_eq (l : List ℤ) :
    ∀ k : ℕ, k < l.length → (l.drop k).getLast? = l.getLast? := by
  induction l with
  | nil => intro k hk; simp at hk
  | cons a t ih =>
    intro k hk
    cases k with
    | zero => rfl
    | succ k2 =>
      have hk2 : k2 < t.length := by simpa using hk
      have ht : t ≠ [] := by
        intro h; rw [h] at hk2; simp at hk2
      obtain ⟨b, t2, hbt⟩ := List.exists_cons_of_ne_nil ht
      rw [List.drop_succ_cons, ih k2 hk2, hbt, List.getLast?_cons_cons]

theorem chain_drop_snoc_split (p : String) (l : List ℤ) (d x : ℤ) (m : ℕ)
    (hm : m < l.length) (hx : l.getLast? = some x)
    (hc : chainOk p (l.drop m ++ [d]) = true) :
    chainOk p (l.drop m) = true ∧ gapOk p x d = true := by
  have hne : l.drop m ≠ [] := by
    intro h
    have := List.length_drop m l
    rw [h] at this
    simp at this
    omega
  obtain ⟨a, t, hat⟩ := List.exists_cons_of_ne_nil hne
  have hlast : lastD a t = x := by
    have h1 : (l.drop m).getLast? = some x := by
      rw [getLast?_drop_eq l m hm]; exact hx
    rw [hat, getLast?_cons_eq_lastD] at h1
    exact Option.some_injective _ h1
  rw [hat] at hc ⊢
  rw [chainOk_snoc, hlast] at hc
  exact ⟨(Bool.and_eq_true_iff.mp hc).1, (Bool.and_eq_true_iff.mp hc).2⟩

theorem chain_drop_snoc_build (p : String) (l : List ℤ) (d x : ℤ) (m : ℕ)
    (hm : m < l.length) (hx : l.getLast? = some x)
    (hc : chainOk p (l.drop m) = true) (hg : gapOk p x d = true) :
    chainOk p (l.drop m ++ [d]) = true := by
  have hne : l.drop m ≠ [] := by
    intro h
    have := List.length_drop m l
    rw [h] at this
    simp at this
    omega
  obtain ⟨a, t, hat⟩ := List.exists_cons_of_ne_nil hne
  have hlast : lastD a t = x := by
    have h1 : (l.drop m).getLast? = some x := by
      rw [getLast?_drop_eq l m hm]; exact hx
    rw [hat, getLast?_cons_eq_lastD] at h1
    exact Option.some_injective _ h1
  rw [hat] at hc ⊢
  rw [chainOk_snoc, hlast, hc, hg]
  rfl

/-- The streak value `update_streak` computes is exactly the length of the
longest on-cadence suffix (run ending at the most recent entry) of the
history. -/
theorem streak_longest_suffix (p : String) :
    ∀ cs : List ℤ, cs ≠ [] →
      ∃ n : ℕ, updateStreakVal p cs = (n : ℤ) ∧ 1 ≤ n ∧ n ≤ cs.length ∧
        chainOk p (cs.drop (cs.length - n)) = true ∧
        ∀ k : ℕ, 1 ≤ k → k ≤ cs.length →
          chainOk p (cs.drop (cs.length - k)) = true → k ≤ n := by
  intro cs
  induction cs using List.reverseRecOn with
  | nil => intro h; simp at h
  | append_singleton l d ih =>
    intro _
    by_cases hl0 : l = []
    · subst hl0
      refine ⟨1, by simp [updateStreakVal, streakGo], le_refl 1, by simp, ?_, ?_⟩
      · simp [chainOk]
      · intro k _ hk2 _
        simpa using hk2
    · obtain ⟨x, hx⟩ := Option.isSome_iff_exists.mp (List.getLast?_isSome.mpr hl0)
      obtain ⟨n, hval, h1, hlen, hchain, hmax⟩ := ih hl0
      have happ := updateStreakVal_append p l d x hx
      by_cases hg : gapOk p x d = true
      · -- on-cadence gap: streak increments, the run extends by one
        refine ⟨n + 1, ?_, by omega, by simp; omega, ?_, ?_⟩
        · rw [happ, if_pos hg, hval]; push_cast; ring
        · have hdrop : (l ++ [d]).drop ((l ++ [d]).length - (n + 1)) =
              l.drop (l.length - n) ++ [d] := by
            have h2 : (l ++ [d]).length - (n + 1) = l.length - n := by
              simp
            rw [h2]
            exact List.drop_append_of_le_length (by omega)
          rw [hdrop]
          exact chain_drop_snoc_build p l d x _ (by omega) hx hchain hg
        · intro k hk1 hk2 hkchain
          by_cases hk3 : k ≤ 1
          · omega
          · have hj1 : 1 ≤ k - 1 := by omega
            have hj2 : k - 1 ≤ l.length := by simp at hk2; omega
            have hdrop : (l ++ [d]).drop ((l ++ [d]).length - k) =
                l.drop (l.length - (k - 1)) ++ [d] := by
              have h2 : (l ++ [d]).length - k = l.length - (k - 1) := by
                simp only [List.length_append, List.length_cons, List.length_nil]
                omega
              rw [h2]
              exact List.drop_append_of_le_length (by omega)
            rw [hdrop] at hkchain
            have := chain_drop_snoc_split p l d x _ (by omega) hx hkchain
            have := hmax (k - 1) hj1 hj2 this.1
            omega
      · -- off-cadence gap: streak resets to 1, no longer suffix is a run
        refine ⟨1, ?_, le_refl 1, by simp, ?_, ?_⟩
        · rw [happ, if_neg hg]; push_cast
        · have hdrop : (l ++ [d]).drop ((l ++ [d]).length - 1) = [d] := by
            have h2 : (l ++ [d]).length - 1 = l.length := by simp
            rw [h2, List.drop_append_of_le_length (le_refl _), List.drop_length]
            rfl
          rw [hdrop]
          simp [chainOk]
        · intro k hk1 hk2 hkchain
          by_contra hk3
          have hj1 : 1 ≤ k - 1 := by omega
          have hj2 : k - 1 ≤ l.length := by simp at hk2; omega
          have hdrop : (l ++ [d]).drop ((l ++ [d]).length - k) =
              l.drop (l.length - (k - 1)) ++ [d] := by
            have h2 : (l ++ [d]).length - k = l.length - (k - 1) := by
              simp only [List.length_append, List.length_cons, List.length_nil]
              omega
            rw [h2]
            exact List.drop_append_of_le_length (by omega)
          rw [hdrop] at hkchain
          have := chain_drop_snoc_split p l d x _ (by omega) hx hkchain
          exact hg this.2

theorem dropWhile_dropWhile (p : Char → Bool) (l : List Char) :
    (l.dropWhile p).dropWhile p = l.dropWhile p := by
  induction l with
  | nil => rfl
  | cons a t ih =>
    by_cases ha : p a
    · simp [List.dropWhile_cons, ha, ih]
    · simp [List.dropWhile_cons, ha]

theorem head?_dropWhile_false (p : Char → Bool) (l : List Char) (c : Char)
    (h : (l.dropWhile p).head? = some c) : p c = false := by
  induction l with
  | nil => simp at h
  | cons a t ih =>
    by_cases ha : p a
    · rw [List.dropWhile_cons, if_pos ha] at h
      exact ih h
    · rw [List.dropWhile_cons, if_neg ha] at h
      simp at h
      rw [← h]
      simpa using ha

theorem dropWhile_eq_self_of_head (p : Char → Bool) (l : List Char)
    (h : ∀ c, l.head? = some c → p c = false) : l.dropWhile p = l := by
  cases l with
  | nil => rfl
  | cons a t =>
    have := h a (by rfl)
    simp [List.dropWhile_cons, this]

theorem dropTail_dropTail (l : List Char) :
    dropTail (dropTail l) = dropTail l := by
  unfold dropTail
  rw [List.reverse_reverse, dropWhile_dropWhile]

theorem head?_dropTail (m : List Char) (c : Char)
    (h : (dropTail m).head? = some c) : m.head? = some c := by
  have hdecomp : m = dropTail m ++
      (m.reverse.takeWhile Char.isWhitespace).reverse := by
    unfold dropTail
    rw [← List.reverse_append, List.takeWhile_append_dropWhile,
      List.reverse_reverse]
  cases hdt : dropTail m with
  | nil => rw [hdt] at h; simp at h
  | cons a t =>
    rw [hdt] at h
    simp at h
    rw [hdecomp, hdt]
    simp [h]

theorem trimChars_idem (l : List Char) :
    trimChars (trimChars l) = trimChars l := by
  unfold trimChars
  rw [dropWhile_eq_self_of_head Char.isWhitespace
    (dropTail (l.dropWhile Char.isWhitespace))
    (fun c hc => head?_dropWhile_false Char.isWhitespace l c
      (head?_dropTail _ c hc)),
    dropTail_dropTail]

theorem strip_strip (s : String) : strip (strip s) = strip s := by
  unfold strip
  exact congrArg String.mk (trimChars_idem s.data)

theorem strip_eq_empty_iff (s : String) :
    (strip s = "") ↔ trimChars s.data = [] := by
  unfold strip
  constructor
  · intro h
    have := congrArg String.data h
    simpa using this
  · intro h
    rw [h]

theorem strip_empty : strip "" = "" := by decide

theorem trackCompletion_eq (name : String) (date : ℤ) (p : String)
    (pts : Option ℤ) (u : PyUser) (old : List ℤ)
    (hlk : lookup u.habits_completed name = some old) :
    trackCompletion name date p pts u =
      some ⟨u.username, u.household,
        upsert u.habits_completed name (old ++ [date]),
        upsert u.streaks name (updateStreakVal p (old ++ [date])),
        u.bonus_claimed,
        (u.points +
          (if updateStreakVal p (old ++ [date]) % 7 == 0 then 5 else 0)) +
          pts.getD 0⟩ := by
  cases pts with
  | none =>
    simp only [trackCompletion, updateStreakU, hlk, Option.isSome_some,
      if_true, Option.getD_some, lookup_upsert_self, Option.map_some,
      Option.some.injEq, Option.getD_none]
    simp
  | some q =>
    simp only [trackCompletion, updateStreakU, hlk, Option.isSome_some,
      if_true, Option.getD_some, lookup_upsert_self, Option.map_some,
      Option.some.injEq, Option.getD_some]
    rfl

theorem trackCompletion_eq_new (name : String) (date : ℤ) (p : String)
    (pts : Option ℤ) (u : PyUser)
    (hlk : lookup u.habits_completed name = none) :
    trackCompletion name date p pts u =
      some ⟨u.username, u.household,
        upsert (upsert u.habits_completed name []) name [date],
        upsert (upsert u.streaks name 0) name (updateStreakVal p [date]),
        u.bonus_claimed,
        (u.points + (if updateStreakVal p [date] % 7 == 0 then 5 else 0)) +
          pts.getD 0⟩ := by
  cases pts with
  | none =>
    simp only [trackCompletion, updateStreakU, hlk, Option.isSome_none,
      Bool.false_eq_true, if_false, lookup_upsert_self, Option.getD_some,
      Option.map_some, Option.some.injEq, List.nil_append, Option.getD_none]
    simp
  | some q =>
    simp only [trackCompletion, updateStreakU, hlk, Option.isSome_none,
      Bool.false_eq_true, if_false, lookup_upsert_self, Option.getD_some,
      Option.map_some, Option.some.injEq, List.nil_append, Option.getD_some]
    rfl

theorem trackCompletion_isSome (name : String) (date : ℤ) (p : String)
    (pts : Option ℤ) (u : PyUser) :
    (trackCompletion name date p pts u).isSome = true := by
  cases hlk : lookup u.habits_completed name with
  | none => rw [trackCompletion_eq_new name date p pts u hlk]; rfl
  | some old => rw [trackCompletion_eq name date p pts u old hlk]; rfl

theorem inv_trackCompletion (name : String) (date : ℤ) (p : String)
    (pts : Option ℤ) (u u2 : PyUser) (hInv : UserInv u)
    (htc : trackCompletion name date p pts u = some u2) : UserInv u2 := by
  cases hlk : lookup u.habits_completed name with
  | some old =>
    rw [trackCompletion_eq name date p pts u old hlk,
      Option.some.injEq] at htc
    subst htc
    intro n l hl
    by_cases hn : n = name
    · subst hn
      rw [lookup_upsert_self] at hl
      refine ⟨?_, ?_⟩
      · have hl2 : old ++ [date] = l := Option.some_injective _ hl
        rw [← hl2]; simp
      · show (lookup (upsert u.streaks n _) n).isSome = true
        rw [lookup_upsert_self]; rfl
    · rw [lookup_upsert_of_ne _ _ _ _ hn] at hl
      obtain ⟨hlne, hst⟩ := hInv n l hl
      refine ⟨hlne, ?_⟩
      show (lookup (upsert u.streaks name _) n).isSome = true
      rw [lookup_upsert_of_ne _ _ _ _ hn]
      exact hst
  | none =>
    rw [trackCompletion_eq_new name date p pts u hlk,
      Option.some.injEq] at htc
    subst htc
    intro n l hl
    by_cases hn : n = name
    · subst hn
      rw [lookup_upsert_self] at hl
      refine ⟨?_, ?_⟩
      · have hl2 : [date] = l := Option.some_injective _ hl
        rw [← hl2]; simp
      · show (lookup (upsert (upsert u.streaks n 0) n _) n).isSome = true
        rw [lookup_upsert_self]; rfl
    · rw [lookup_upsert_of_ne _ _ _ _ hn,
        lookup_upsert_of_ne _ _ _ _ hn] at hl
      obtain ⟨hlne, hst⟩ := hInv n l hl
      refine ⟨hlne, ?_⟩
      show (lookup (upsert (upsert u.streaks name 0) name _) n).isSome = true
      rw [lookup_upsert_of_ne _ _ _ _ hn, lookup_upsert_of_ne _ _ _ _ hn]
      exact hst

theorem complete_cases (today : ℤ) (curWeek : String) (hb : PyHabit)
    (u : PyUser) (msg : String) (u' : PyUser)
    (hc : complete today curWeek hb u = some (msg, u')) :
    u' = u ∨ ∃ u1 : PyUser, u1.habits_completed = u.habits_completed ∧
      u1.streaks = u.streaks ∧
      ∃ u2, trackCompletion hb.name today hb.periodicity none u1 = some u2 ∧
        u'.habits_completed = u2.habits_completed ∧
        u'.streaks = u2.streaks := by
  unfold complete at hc
  cases hdone : hasCompletedToday today hb.name u with
  | none => rw [hdone] at hc; simp at hc
  | some b =>
    rw [hdone] at hc
    cases b with
    | true =>
      simp only [Option.some.injEq, Prod.mk.injEq] at hc
      exact Or.inl hc.2.symm
    | false =>
      by_cases hcl :
          (hb.is_bonus && lookup u.bonus_claimed hb.name == some curWeek) = true
      · simp only [hcl, if_true, Option.some.injEq, Prod.mk.injEq] at hc
        exact Or.inl hc.2.symm
      · simp only [hcl, Bool.false_eq_true, if_false] at hc
        set u1 : PyUser := if hb.is_bonus then
          { u with bonus_claimed := upsert u.bonus_claimed hb.name curWeek }
          else u with hu1
        have h1 : u1.habits_completed = u.habits_completed := by
          rw [hu1]; by_cases hbb : hb.is_bonus <;> simp [hbb]
        have h2 : u1.streaks = u.streaks := by
          rw [hu1]; by_cases hbb : hb.is_bonus <;> simp [hbb]
        cases htc : trackCompletion hb.name today hb.periodicity none u1 with
        | none =>
          have := trackCompletion_isSome hb.name today hb.periodicity none u1
          rw [htc] at this
          simp at this
        | some u2 =>
          rw [htc] at hc
          simp only [Option.map_some', Option.some.injEq, Prod.mk.injEq] at hc
          refine Or.inr ⟨u1, h1, h2, u2, htc, ?_, ?_⟩
          · rw [← hc.2]
          · rw [← hc.2]

theorem reachable_inv (u : PyUser) (hr : ReachableUser u) : UserInv u := by
  induction hr with
  | init username household pts =>
    intro n l hl
    simp [userInit, lookup] at hl
  | track u u' name date p pts _ htc ih =>
    exact inv_trackCompletion name date p pts u u' ih htc
  | completeStep u u' today curWeek msg hb _ hcomp ih =>
    rcases complete_cases today curWeek hb u msg u' hcomp with
      h | ⟨u1, h1, h2, u2, htc, h3, h4⟩
    · rw [h]; exact ih
    · have hInv1 : UserInv u1 := by
        unfold UserInv
        rw [h1, h2]
        exact ih
      have hInv2 : UserInv u2 :=
        inv_trackCompletion hb.name today hb.periodicity none u1 u2 hInv1 htc
      unfold UserInv
      rw [h3, h4]
      exact hInv2

theorem hasCompletedToday_isSome (u : PyUser) (hInv : UserInv u)
    (today : ℤ) (name : String) :
    (hasCompletedToday today name u).isSome = true := by
  unfold hasCompletedToday
  cases hlk : lookup u.habits_completed name with
  | none => rfl
  | some l =>
    obtain ⟨hne, -⟩ := hInv name l hlk
    show (match l.getLast? with
      | none => (none : Option Bool)
      | some d => some (d == today)).isSome = true
    cases hgl : l.getLast? with
    | none =>
      have := List.getLast?_isSome.mpr hne
      rw [hgl] at this
      simp at this
    | some d => rfl

theorem lookup_mem {β : Type} (m : List (String × β)) (k : String) (v : β)
    (h : lookup m k = some v) : (k, v) ∈ m := by
  induction m with
  | nil => simp [lookup] at h
  | cons e t ih =>
    by_cases he : e.1 == k
    · have hek : e.1 = k := by simpa [beq_iff_eq] using he
      rw [lookup, if_pos he] at h
      have hv : e.2 = v := Option.some_injective _ h
      have : e = (k, v) := by
        rw [← hek, ← hv]
      rw [← this]
      exact List.mem_cons_self e t
    · rw [lookup, if_neg he] at h
      exact List.mem_cons_of_mem e (ih h)

theorem resetMonthly_empty_eq (now : String) (lb : LBState)
    (hcur : lb.rankings.filter (fun hr => !hr.2.isEmpty) = []) :
    resetMonthly now lb = ⟨[], lb.past_rankings⟩ := by
  unfold resetMonthly
  rw [hcur]
  rfl

theorem resetMonthly_nonempty_eq (now : String) (lb : LBState)
    (hcne : ((lb.rankings.filter (fun hr => !hr.2.isEmpty)).map
      (fun hr => (hr.1, sortDesc hr.2))).isEmpty = false) :
    resetMonthly now lb = ⟨[], lb.past_rankings ++
      [⟨now,
        (lb.rankings.filter (fun hr => !hr.2.isEmpty)).map
          (fun hr => (hr.1, sortDesc hr.2)),
        (topAux (iterUsers ((lb.rankings.filter (fun hr => !hr.2.isEmpty)).map
          (fun hr => (hr.1, sortDesc hr.2)))) (none, 0)).1,
        (topAux (iterUsers ((lb.rankings.filter (fun hr => !hr.2.isEmpty)).map
          (fun hr => (hr.1, sortDesc hr.2)))) (none, 0)).2⟩]⟩ := by
  unfold resetMonthly
  simp only [hcne, Bool.false_eq_true, if_false]

theorem topAux_cons (e : String × ℤ) (t : List (String × ℤ))
    (acc : Option String × ℤ) :
    topAux (e :: t) acc =
      topAux t (if e.2 > acc.2 then (some e.1, e.2) else acc) := rfl

theorem topAux_const :
    ∀ (l : List (String × ℤ)) (acc : Option String × ℤ),
      (∀ e ∈ l, e.2 ≤ acc.2) → topAux l acc = acc := by
  intro l
  induction l with
  | nil => intro acc _; rfl
  | cons e t ih =>
    intro acc h
    rw [topAux_cons]
    have hne : ¬(e.2 > acc.2) := not_lt.mpr (h e (List.mem_cons_self e t))
    rw [if_neg hne]
    exact ih acc (fun x hx => h x (List.mem_cons_of_mem e hx))

theorem le_maxPts :
    ∀ (l : List (String × ℤ)) (e : String × ℤ), e ∈ l → e.2 ≤ maxPts l := by
  intro l
  induction l with
  | nil => intro e he; simp at he
  | cons x t ih =>
    intro e he
    rcases List.mem_cons.mp he with rfl | ht
    · exact le_max_left _ _
    · exact le_trans (ih e ht) (le_max_right _ _)

theorem maxPts_attained :
    ∀ l : List (String × ℤ), 0 < maxPts l → ∃ e ∈ l, e.2 = maxPts l := by
  intro l
  induction l with
  | nil => intro h; simp [maxPts] at h
  | cons x t ih =>
    intro h
    rcases le_total (maxPts t) x.2 with hle | hle
    · refine ⟨x, List.mem_cons_self x t, ?_⟩
      show x.2 = max x.2 (maxPts t)
      exact (max_eq_left hle).symm
    · have hmx : maxPts (x :: t) = maxPts t := max_eq_right hle
      rw [hmx] at h ⊢
      obtain ⟨e, het, heq⟩ := ih h
      exact ⟨e, List.mem_cons_of_mem x het, heq⟩

theorem topAux_first_max :
    ∀ (l : List (String × ℤ)) (u0 : Option String) (p0 m : ℤ),
      (∀ e ∈ l, e.2 ≤ m) → p0 < m → (∃ e ∈ l, e.2 = m) →
      topAux l (u0, p0) =
        ((l.find? (fun x => decide (m ≤ x.2))).map (fun x => x.1), m) := by
  intro l
  induction l with
  | nil => intro u0 p0 m _ _ hex; simp at hex
  | cons e t ih =>
    intro u0 p0 m hle hp0 hex
    by_cases he : e.2 = m
    · have hgt : e.2 > p0 := by omega
      rw [topAux_cons, if_pos hgt,
        topAux_const t (some e.1, e.2)
          (fun x hx => he ▸ hle x (List.mem_cons_of_mem e hx)),
        List.find?_cons_of_pos _ (by simpa using le_of_eq he.symm)]
      simp [he]
    · have hlt : e.2 < m :=
        lt_of_le_of_ne (hle e (List.mem_cons_self e t)) he
      have hext : ∃ x ∈ t, x.2 = m := by
        obtain ⟨w, hw, hweq⟩ := hex
        rcases List.mem_cons.mp hw with rfl | hwt
        · exact absurd hweq he
        · exact ⟨w, hwt, hweq⟩
      have hlet : ∀ x ∈ t, x.2 ≤ m :=
        fun x hx => hle x (List.mem_cons_of_mem e hx)
      rw [topAux_cons,
        List.find?_cons_of_neg _ (by simpa using hlt)]
      by_cases hgt : e.2 > p0
      · rw [if_pos hgt]
        exact ih (some e.1) e.2 m hlet hlt hext
      · rw [if_neg hgt]
        exact ih u0 p0 m hlet hp0 hext

end Lemmas

section Claims

/-- Claim C8: `Habit` construction fails exactly when the input is invalid —
it raises for a name that is empty or whitespace-only after trimming, for
negative points, or for a periodicity other than exactly "daily" or
"weekly", and succeeds whenever the trimmed name is non-empty, points is
non-negative, and the periodicity is "daily" or "weekly". -/
theorem claim_C8_habit_validation (name periodicity : String) (points : ℤ)
    (isBonus : Bool) (createdAt : String) :
    (∃ h, habitInit name periodicity points isBonus createdAt = Except.ok h) ↔
      (strip name ≠ "" ∧ 0 ≤ points ∧
        (periodicity = "daily" ∨ periodicity = "weekly")) := by
  unfold habitInit
  constructor
  · rintro ⟨h, hh⟩
    by_cases h1 : (name == "" || strip name == "") = true
    · rw [if_pos h1] at hh; exact absurd hh (by simp)
    · rw [if_neg h1] at hh
      by_cases h2 : points < 0
      · rw [if_pos h2] at hh; exact absurd hh (by simp)
      · rw [if_neg h2] at hh
        by_cases h3 : (!(periodicity == "daily" || periodicity == "weekly")) = true
        · rw [if_pos h3] at hh; exact absurd hh (by simp)
        · refine ⟨?_, by omega, ?_⟩
          · simp only [Bool.or_eq_true, beq_iff_eq] at h1
            exact fun hc => h1 (Or.inr hc)
          · have h3i : ¬periodicity = "daily" → periodicity = "weekly" := by
              simpa using h3
            by_cases hd : periodicity = "daily"
            · exact Or.inl hd
            · exact Or.inr (h3i hd)
  · rintro ⟨hn, hp, hper⟩
    refine ⟨⟨strip name, periodicity, createdAt, points, isBonus⟩, ?_⟩
    have h1 : (name == "" || strip name == "") = false := by
      simp only [Bool.or_eq_false_iff, beq_eq_false_iff_ne]
      refine ⟨?_, hn⟩
      intro hc
      rw [hc, strip_empty] at hn
      exact hn rfl
    have h2 : ¬points < 0 := by omega
    have h3 : (!(periodicity == "daily" || periodicity == "weekly")) = false := by
      rcases hper with hd | hw
      · simp [hd]
      · simp [hw]
    rw [if_neg (by simp [h1]), if_neg h2, if_neg (by simp [h3])]

/-- Claim C9: for every validly constructed `Habit`, the round-trip
`Habit.from_dict(habit.to_dict())` produces a `Habit` whose name,
periodicity, points and is_bonus equal those of the original (only
`created_at` is re-stamped). -/
theorem claim_C9_habit_roundtrip (raw periodicity : String) (points : ℤ)
    (isBonus : Bool) (createdAt now : String) (h : PyHabit)
    (hinit : habitInit raw periodicity points isBonus createdAt = Except.ok h) :
    habitFromDict (habitToDict h) now =
      Except.ok ⟨h.name, h.periodicity, now, h.points, h.is_bonus⟩ := by
  unfold habitInit at hinit
  by_cases h1 : (raw == "" || strip raw == "") = true
  · rw [if_pos h1] at hinit; exact absurd hinit (by simp)
  · rw [if_neg h1] at hinit
    by_cases h2 : points < 0
    · rw [if_pos h2] at hinit; exact absurd hinit (by simp)
    · rw [if_neg h2] at hinit
      by_cases h3 : (!(periodicity == "daily" || periodicity == "weekly")) = true
      · rw [if_pos h3] at hinit; exact absurd hinit (by simp)
      · rw [if_neg h3] at hinit
        have hh : h = ⟨strip raw, periodicity, createdAt, points, isBonus⟩ := by
          have := hinit
          simp only [Except.ok.injEq] at this
          exact this.symm
        subst hh
        have h1f : (raw == "" || strip raw == "") = false :=
          Bool.eq_false_iff.mpr h1
        have hne : (strip raw == "") = false :=
          (Bool.or_eq_false_iff.mp h1f).2
        show habitInit (strip raw) periodicity points isBonus now = _
        unfold habitInit
        rw [strip_strip]
        rw [if_neg (by simp [hne]), if_neg h2, if_neg h3]

/-- Witness for C9 at a concrete habit with an untrimmed name. -/
theorem claim_C9_habit_roundtrip_witness :
    habitInit " run " "daily" 2 true "t0" =
        Except.ok ⟨"run", "daily", "t0", 2, true⟩ ∧
      habitFromDict (habitToDict ⟨"run", "daily", "t0", 2, true⟩) "t1" =
        Except.ok ⟨"run", "daily", "t1", 2, true⟩ :=
  ⟨rfl,
   claim_C9_habit_roundtrip " run " "daily" 2 true "t0" "t1"
     ⟨"run", "daily", "t0", 2, true⟩ rfl⟩

/-- Claim C2: for a non-empty ordered completion history, `update_streak`
stores the length of the longest run of consecutive periodicity-matching
gaps ending at the most recent entry — N consecutive on-cadence entries
yield streak N, a non-matching gap bounds the run (resetting the running
count to 1), and a single completion yields streak 1. -/
theorem claim_C2_streak_longest_run (p : String) (u : PyUser) (name : String)
    (cs : List ℤ) (hcs : lookup u.habits_completed name = some cs)
    (hne : cs ≠ []) :
    ∃ u', updateStreakU name p u = some u' ∧
      ∃ n : ℕ, lookup u'.streaks name = some ((n : ℤ)) ∧
        updateStreakVal p cs = (n : ℤ) ∧ 1 ≤ n ∧ n ≤ cs.length ∧
        chainOk p (cs.drop (cs.length - n)) = true ∧
        (∀ k : ℕ, 1 ≤ k → k ≤ cs.length →
          chainOk p (cs.drop (cs.length - k)) = true → k ≤ n) := by
  obtain ⟨n, hval, h1, hlen, hchain, hmax⟩ := streak_longest_suffix p cs hne
  refine ⟨{ u with
      streaks := upsert u.streaks name (updateStreakVal p cs),
      points := u.points +
        (if updateStreakVal p cs % 7 == 0 then 5 else 0) },
    ?_, n, ?_, hval, h1, hlen, hchain, hmax⟩
  · unfold updateStreakU
    rw [hcs]
    rfl
  · show lookup (upsert u.streaks name (updateStreakVal p cs)) name = _
    rw [lookup_upsert_self, hval]

/-- Witness for C2: daily history `[0, 1, 3, 4, 5]` (one off-cadence gap in
the middle) yields a stored streak of 3, the trailing run `[3, 4, 5]`. -/
theorem claim_C2_streak_longest_run_witness :
    ∃ u', updateStreakU "h" "daily"
        ⟨"a", "H", [("h", [0, 1, 3, 4, 5])], [("h", 1)], [], 0⟩ = some u' ∧
      ∃ n : ℕ, lookup u'.streaks "h" = some ((n : ℤ)) ∧
        updateStreakVal "daily" [0, 1, 3, 4, 5] = (n : ℤ) ∧ 1 ≤ n ∧
        n ≤ ([0, 1, 3, 4, 5] : List ℤ).length ∧
        chainOk "daily" (([0, 1, 3, 4, 5] : List ℤ).drop
          (([0, 1, 3, 4, 5] : List ℤ).length - n)) = true ∧
        (∀ k : ℕ, 1 ≤ k → k ≤ ([0, 1, 3, 4, 5] : List ℤ).length →
          chainOk "daily" (([0, 1, 3, 4, 5] : List ℤ).drop
            (([0, 1, 3, 4, 5] : List ℤ).length - k)) = true → k ≤ n) :=
  claim_C2_streak_longest_run "daily"
    ⟨"a", "H", [("h", [0, 1, 3, 4, 5])], [("h", 1)], [], 0⟩ "h"
    [0, 1, 3, 4, 5] rfl (by decide)

/-- Claim C4 (amended): `get_bonus_points` returns 5 exactly when the stored
streak is divisible by 7 — which includes a stored streak of 0 — and 0 for
any non-divisible stored streak; it returns 0 when the habit has no stored
streak. -/
theorem claim_C4_bonus_points (u : PyUser) (name : String) :
    (lookup u.streaks name = none → getBonusPoints name u = 0) ∧
    (∀ s, lookup u.streaks name = some s →
      ((7 ∣ s → getBonusPoints name u = 5) ∧
        (¬(7 ∣ s) → getBonusPoints name u = 0))) := by
  constructor
  · intro h
    unfold getBonusPoints
    rw [h]
  · intro s hs
    unfold getBonusPoints
    rw [hs]
    constructor
    · intro hdvd
      have : s % 7 = 0 := Int.emod_eq_zero_of_dvd hdvd
      simp [this]
    · intro hdvd
      have : ¬s % 7 = 0 := fun hc => hdvd (Int.dvd_of_emod_eq_zero hc)
      simp [this]

/-- Witness for C4: stored streak 14 gives bonus 5, absent habit gives 0. -/
theorem claim_C4_bonus_points_witness :
    getBonusPoints "h" ⟨"a", "H", [], [("h", 14)], [], 0⟩ = 5 :=
  (((claim_C4_bonus_points ⟨"a", "H", [], [("h", 14)], [], 0⟩ "h").2 14
    rfl).1 (by decide))

/-- Counterexample for C4 as stated: a stored streak of 0 is not a positive
multiple of 7, yet `get_bonus_points` returns 5, not 0 (Python `0 % 7 == 0`). -/
theorem claim_C4_bonus_points_counterexample :
    lookup (PyUser.streaks ⟨"a", "H", [], [("h", 0)], [], 0⟩) "h" = some 0 ∧
      getBonusPoints "h" ⟨"a", "H", [], [("h", 0)], [], 0⟩ = 5 ∧
      (5 : ℤ) ≠ 0 := by
  refine ⟨rfl, rfl, by decide⟩

/-- Claim C3 (amended): streak counters stay positive (hence non-negative)
under `User.update_streak`; a completion recorded through
`User.track_completion` increments the streak by exactly 1 when the gap
since the last completion matches the periodicity and resets it to 1
otherwise; but a completion recorded through `DataManager.complete_habit`
increments the persisted streak counter by exactly 1 unconditionally,
consulting no completion date at all. -/
theorem claim_C3_streak_transition :
    (∀ (p : String) (cs : List ℤ), 1 ≤ updateStreakVal p cs) ∧
    (∀ (p : String) (cs : List ℤ) (d x : ℤ), cs.getLast? = some x →
      updateStreakVal p (cs ++ [d]) =
        if gapOk p x d then updateStreakVal p cs + 1 else 1) ∧
    (∀ (today : ℤ) (username habitName : String) (s s' : DMState),
      dmCompleteHabit today username habitName s = some (true, s') →
      ∃ m', lookup s'.streaks username = some m' ∧
        lookup m' habitName =
          some ((lookup ((lookup s.streaks username).getD []) habitName).getD 0
            + 1)) := by
  refine ⟨updateStreakVal_ge_one, updateStreakVal_append, ?_⟩
  intro today username habitName s s' h
  unfold dmCompleteHabit at h
  cases hhab : s.habits.find? (fun h => h.name == habitName) with
  | none =>
    simp only [hhab] at h
    simp at h
  | some habit =>
    simp only [hhab] at h
    cases hhh : s.households.find? (fun hh => hh.2.members.contains username) with
    | none =>
      simp only [hhh] at h
      simp at h
    | some hhPair =>
      obtain ⟨hhName, hhRec⟩ := hhPair
      simp only [hhh] at h
      cases hpts : lookup hhRec.points username with
      | none =>
        simp only [hpts] at h
        simp at h
      | some pv =>
        simp only [hpts, Option.some.injEq, Prod.mk.injEq] at h
        obtain ⟨-, h2⟩ := h
        subst h2
        exact ⟨_, lookup_upsert_self _ _ _, lookup_upsert_self _ _ _⟩

/-- Witness for C3 at concrete inputs: a matching daily gap increments
(history `[0, 1, 2]` extended by day 3), and a `DataManager.complete_habit`
call bumps the stored streak by 1. -/
theorem claim_C3_streak_transition_witness :
    ((1 : ℤ) ≤ updateStreakVal "daily" [0, 1, 2]) ∧
    (updateStreakVal "daily" ([0, 1, 2] ++ [3]) =
      if gapOk "daily" 2 3 then updateStreakVal "daily" [0, 1, 2] + 1 else 1) ∧
    (∃ m', lookup (DMState.streaks
        ⟨[("H", ⟨["u"], [("u", 2)]⟩)], [⟨"run", "daily", "t", 2, false⟩],
          [("u", [("run", 2)])], [(0, [("run", "u")]), (3, [("run", "u")])]⟩)
        "u" = some m' ∧
      lookup m' "run" = some ((lookup ((lookup (DMState.streaks
        ⟨[("H", ⟨["u"], [("u", 0)]⟩)], [⟨"run", "daily", "t", 2, false⟩],
          [("u", [("run", 1)])], [(0, [("run", "u")])]⟩) "u").getD [])
        "run").getD 0 + 1)) :=
  ⟨claim_C3_streak_transition.1 "daily" [0, 1, 2],
   claim_C3_streak_transition.2.1 "daily" [0, 1, 2] 3 2 rfl,
   claim_C3_streak_transition.2.2 3 "u" "run"
     ⟨[("H", ⟨["u"], [("u", 0)]⟩)], [⟨"run", "daily", "t", 2, false⟩],
       [("u", [("run", 1)])], [(0, [("run", "u")])]⟩
     ⟨[("H", ⟨["u"], [("u", 2)]⟩)], [⟨"run", "daily", "t", 2, false⟩],
       [("u", [("run", 2)])], [(0, [("run", "u")]), (3, [("run", "u")])]⟩
     rfl⟩

/-- Counterexample for C3 as stated: the user's only recorded completion of
the daily habit "run" is on day 0, and the next `DataManager.complete_habit`
call happens on day 3 — a gap of 3 days, which does not match the
periodicity — yet the persisted streak counter goes from 1 to 2 instead of
resetting to 1. -/
theorem claim_C3_streak_transition_counterexample :
    dmCompleteHabit 3 "u" "run"
        ⟨[("H", ⟨["u"], [("u", 0)]⟩)], [⟨"run", "daily", "t", 2, false⟩],
          [("u", [("run", 1)])], [(0, [("run", "u")])]⟩ =
      some (true,
        ⟨[("H", ⟨["u"], [("u", 2)]⟩)], [⟨"run", "daily", "t", 2, false⟩],
          [("u", [("run", 2)])], [(0, [("run", "u")]), (3, [("run", "u")])]⟩) ∧
      gapOk "daily" 0 3 = false ∧ (2 : ℤ) ≠ 1 := by
  refine ⟨rfl, rfl, by decide⟩

/-- Claim C1 (amended): when `Habit.complete` succeeds on a non-bonus habit,
the user's total points increase by `base_points + 10` when the updated
streak is a positive multiple of 7 (the +5 streak bonus is added twice:
once by `User.update_streak` and once more by `Habit.calculate_points`),
and by exactly `base_points` otherwise. -/
theorem claim_C1_completion_points (today : ℤ) (curWeek : String)
    (hb : PyHabit) (u : PyUser) (hbon : hb.is_bonus = false)
    (hdone : hasCompletedToday today hb.name u = some false) :
    ∃ msg u' s, complete today curWeek hb u = some (msg, u') ∧
      lookup u'.streaks hb.name = some s ∧ 1 ≤ s ∧
      u'.points = u.points + hb.points + (if s % 7 = 0 then 10 else 0) := by
  unfold complete
  rw [hdone, hbon]
  simp only [Bool.false_and, Bool.false_eq_true, if_false]
  cases hlk : lookup u.habits_completed hb.name with
  | some oldl =>
    rw [trackCompletion_eq hb.name today hb.periodicity none u oldl hlk]
    refine ⟨_, _, updateStreakVal hb.periodicity (oldl ++ [today]), rfl,
      ?_, updateStreakVal_ge_one _ _, ?_⟩
    · exact lookup_upsert_self _ _ _
    · show ((u.points +
          (if updateStreakVal hb.periodicity (oldl ++ [today]) % 7 == 0
            then 5 else 0)) + (Option.getD none 0)) +
          calculatePoints hb _ = _
      simp only [calculatePoints, lookup_upsert_self, Option.getD_some,
        Option.getD_none]
      by_cases hmod : updateStreakVal hb.periodicity (oldl ++ [today]) % 7 = 0
      · simp [hmod]; ring
      · simp [hmod]
  | none =>
    rw [trackCompletion_eq_new hb.name today hb.periodicity none u hlk]
    refine ⟨_, _, updateStreakVal hb.periodicity [today], rfl,
      ?_, updateStreakVal_ge_one _ _, ?_⟩
    · exact lookup_upsert_self _ _ _
    · show ((u.points +
          (if updateStreakVal hb.periodicity [today] % 7 == 0
            then 5 else 0)) + (Option.getD none 0)) +
          calculatePoints hb _ = _
      simp only [calculatePoints, lookup_upsert_self, Option.getD_some,
        Option.getD_none]
      by_cases hmod : updateStreakVal hb.periodicity [today] % 7 = 0
      · simp [hmod]; ring
      · simp [hmod]

/-- Witness for C1: six consecutive daily completions on days 0–5, then a
successful completion on day 6: the streak becomes 7 and the user gains
`3 + 10 = 13` points, not `3 + 5`. -/
theorem claim_C1_completion_points_witness :
    hasCompletedToday 6 "run"
        ⟨"alice", "H", [("run", [0, 1, 2, 3, 4, 5])], [("run", 6)], [], 0⟩ =
      some false ∧
    (∃ msg u' s, complete 6 "w" ⟨"run", "daily", "t0", 3, false⟩
        ⟨"alice", "H", [("run", [0, 1, 2, 3, 4, 5])], [("run", 6)], [], 0⟩ =
        some (msg, u') ∧
      lookup u'.streaks "run" = some s ∧ 1 ≤ s ∧
      u'.points = 0 + 3 + (if s % 7 = 0 then 10 else 0)) :=
  ⟨rfl, claim_C1_completion_points 6 "w" ⟨"run", "daily", "t0", 3, false⟩
    ⟨"alice", "H", [("run", [0, 1, 2, 3, 4, 5])], [("run", 6)], [], 0⟩
    rfl rfl⟩

/-- Counterexample for C1 as stated: on the 7th consecutive on-cadence
completion of a non-bonus 3-point habit, the user's points go from 0 to 13
(`base + 10`), not to 8 (`base + 5`); the success message still reports
only 8 points earned. -/
theorem claim_C1_completion_points_counterexample :
    (complete 6 "w" ⟨"run", "daily", "t0", 3, false⟩
        ⟨"alice", "H", [("run", [0, 1, 2, 3, 4, 5])], [("run", 6)], [], 0⟩).map
        (fun r => (r.2.points, lookup r.2.streaks "run")) =
      some (13, some 7) ∧ (13 : ℤ) ≠ 0 + 3 + 5 := by
  refine ⟨rfl, by decide⟩

/-- Claim C7: when `Habit.complete` rejects a completion — the habit was
already completed today, or it is a bonus habit whose current week was
already claimed — it returns a message and leaves the user object (points,
history, streaks, bonus-claim record) entirely unchanged. -/
theorem claim_C7_rejection_no_change (today : ℤ) (curWeek : String)
    (hb : PyHabit) (u : PyUser)
    (hrej : hasCompletedToday today hb.name u = some true ∨
      (hasCompletedToday today hb.name u = some false ∧ hb.is_bonus = true ∧
        lookup u.bonus_claimed hb.name = some curWeek)) :
    ∃ msg, complete today curWeek hb u = some (msg, u) := by
  rcases hrej with hdone | ⟨hdone, hbon, hclaim⟩
  · refine ⟨"Oops! " ++ hb.name ++ " has already been completed today.", ?_⟩
    unfold complete
    rw [hdone]
  · refine ⟨"Oops! " ++ hb.name ++ " has already been claimed this week.", ?_⟩
    unfold complete
    rw [hdone, hbon, hclaim]
    simp

/-- Witness for C7: the habit's last recorded completion is today, so the
attempt is rejected and the user is returned unchanged. -/
theorem claim_C7_rejection_no_change_witness :
    ∃ msg, complete 5 "w" ⟨"h", "daily", "t", 2, false⟩
        ⟨"a", "H", [("h", [5])], [("h", 1)], [], 3⟩ =
      some (msg, ⟨"a", "H", [("h", [5])], [("h", 1)], [], 3⟩) :=
  claim_C7_rejection_no_change 5 "w" ⟨"h", "daily", "t", 2, false⟩
    ⟨"a", "H", [("h", [5])], [("h", 1)], [], 3⟩ (Or.inl rfl)

/-- Claim C10: for every `User` created by the constructor and mutated only
through `track_completion` (directly or via `Habit.complete`), every stored
history list is non-empty and has a streak entry; consequently
`has_completed_today` never indexes an empty list (its result is always
defined), and `track_completion` — and with it the `update_streak` lookup it
performs — always succeeds. -/
theorem claim_C10_history_safety (u : PyUser) (hr : ReachableUser u) :
    UserInv u ∧
    (∀ (today : ℤ) (name : String),
      (hasCompletedToday today name u).isSome = true) ∧
    (∀ (name : String) (date : ℤ) (p : String) (pts : Option ℤ),
      (trackCompletion name date p pts u).isSome = true) :=
  ⟨reachable_inv u hr,
   fun today name => hasCompletedToday_isSome u (reachable_inv u hr) today name,
   fun name date p pts => trackCompletion_isSome name date p pts u⟩

/-- Witness for C10 at the freshly constructed user. -/
theorem claim_C10_history_safety_witness :
    UserInv (userInit "a" "H" 0) ∧
    (∀ (today : ℤ) (name : String),
      (hasCompletedToday today name (userInit "a" "H" 0)).isSome = true) ∧
    (∀ (name : String) (date : ℤ) (p : String) (pts : Option ℤ),
      (trackCompletion name date p pts (userInit "a" "H" 0)).isSome = true) :=
  claim_C10_history_safety (userInit "a" "H" 0) (ReachableUser.init "a" "H" 0)

/-- Claim C5 (amended): when no household has a non-empty ranking map,
`reset_monthly` appends no archive record; it replaces the current rankings
mapping by the empty mapping (dropping any empty per-household keys rather
than leaving the mapping exactly as it was), so the observable rankings via
`get_sorted_rankings` are empty for every household both before and after,
and the call is a strict no-op exactly when the mapping had no keys. -/
theorem claim_C5_reset_monthly_empty (now : String) (lb : LBState)
    (hempty : ∀ hr ∈ lb.rankings, hr.2 = ([] : List (String × ℤ))) :
    (resetMonthly now lb).past_rankings = lb.past_rankings ∧
    (resetMonthly now lb).rankings = [] ∧
    (∀ hh, getSortedRankings hh (resetMonthly now lb) = []) ∧
    (∀ hh, getSortedRankings hh lb = []) := by
  have hcur : lb.rankings.filter (fun hr => !hr.2.isEmpty) = [] := by
    rw [List.filter_eq_nil_iff]
    intro a ha
    rw [hempty a ha]
    simp
  rw [resetMonthly_empty_eq now lb hcur]
  refine ⟨rfl, rfl, fun hh => rfl, fun hh => ?_⟩
  unfold getSortedRankings
  cases hlk : lookup lb.rankings hh with
  | none => rfl
  | some r =>
    have hr0 : r = [] := hempty (hh, r) (lookup_mem lb.rankings hh r hlk)
    subst hr0
    rfl

/-- Witness for C5: a state with one household key holding an empty map. -/
theorem claim_C5_reset_monthly_empty_witness :
    (resetMonthly "01-2024" ⟨[("H", [])], []⟩).past_rankings =
      (⟨[("H", [])], []⟩ : LBState).past_rankings ∧
    (resetMonthly "01-2024" ⟨[("H", [])], []⟩).rankings = [] ∧
    (∀ hh, getSortedRankings hh (resetMonthly "01-2024" ⟨[("H", [])], []⟩) = []) ∧
    (∀ hh, getSortedRankings hh (⟨[("H", [])], []⟩ : LBState) = []) :=
  claim_C5_reset_monthly_empty "01-2024" ⟨[("H", [])], []⟩ (by decide)

/-- Counterexample for C5 as stated: with rankings `{"H": {}}` (a household
key with an empty map), `reset_monthly` appends nothing, but the rankings
mapping becomes `{}`, which is not exactly the mapping it started with. -/
theorem claim_C5_reset_monthly_empty_counterexample :
    (∀ hr ∈ (⟨[("H", [])], []⟩ : LBState).rankings,
      hr.2 = ([] : List (String × ℤ))) ∧
    (resetMonthly "01-2024" ⟨[("H", [])], []⟩).rankings ≠
      (⟨[("H", [])], []⟩ : LBState).rankings ∧
    (resetMonthly "01-2024" ⟨[("H", [])], []⟩).past_rankings = [] := by
  refine ⟨by decide, by decide, rfl⟩

/-- Claim C6 (amended): with at least one non-empty household ranking,
`reset_monthly` appends exactly one archive record carrying the passed
period label, a snapshot of every non-empty ranking each sorted descending
by points, and the top performer determined by a strict-maximum scan
started at 0: when some user has strictly positive points the archived top
user is the first user (in iteration order over the sorted snapshot) whose
points equal the maximum, with those points; when no user has positive
points the archived top user is `None` with 0 points.  Afterwards all
current rankings are cleared and `get_sorted_rankings` returns an empty
mapping for every household. -/
theorem claim_C6_reset_monthly_archive (now : String) (lb : LBState)
    (hne : ∃ hr ∈ lb.rankings, hr.2 ≠ ([] : List (String × ℤ))) :
    ∃ e : ArchiveEntry,
      (resetMonthly now lb).past_rankings = lb.past_rankings ++ [e] ∧
      e.month = now ∧
      e.rankings.map (fun hr => hr.1) =
        (lb.rankings.filter (fun hr => !hr.2.isEmpty)).map (fun hr => hr.1) ∧
      (∀ hr ∈ e.rankings, ∃ orig, (hr.1, orig) ∈ lb.rankings ∧ orig ≠ [] ∧
        hr.2.Perm orig ∧ hr.2.Sorted (fun a b => b.2 ≤ a.2)) ∧
      (0 < maxPts (iterUsers e.rankings) →
        e.top_user = ((iterUsers e.rankings).find?
            (fun x => decide (maxPts (iterUsers e.rankings) ≤ x.2))).map
          (fun x => x.1) ∧
        e.points = maxPts (iterUsers e.rankings)) ∧
      (maxPts (iterUsers e.rankings) ≤ 0 →
        e.top_user = none ∧ e.points = 0) ∧
      (resetMonthly now lb).rankings = [] ∧
      (∀ hh, getSortedRankings hh (resetMonthly now lb) = []) := by
  have hcne : ((lb.rankings.filter (fun hr => !hr.2.isEmpty)).map
      (fun hr => (hr.1, sortDesc hr.2))).isEmpty = false := by
    obtain ⟨hr, hmem, hrne⟩ := hne
    rw [List.isEmpty_eq_false]
    simp only [ne_eq, List.map_eq_nil_iff]
    intro hnil
    rw [List.filter_eq_nil_iff] at hnil
    exact hnil hr hmem (by simpa using hrne)
  rw [resetMonthly_nonempty_eq now lb hcne]
  refine ⟨_, rfl, rfl, ?_, ?_, ?_, ?_, rfl, fun hh => rfl⟩
  · show ((lb.rankings.filter (fun hr => !hr.2.isEmpty)).map
      (fun hr => (hr.1, sortDesc hr.2))).map (fun hr => hr.1) = _
    rw [List.map_map]
    rfl
  · intro hr hmem
    show ∃ orig, (hr.1, orig) ∈ lb.rankings ∧ orig ≠ [] ∧
      hr.2.Perm orig ∧ hr.2.Sorted (fun a b => b.2 ≤ a.2)
    obtain ⟨a, haf, heq⟩ := List.mem_map.mp hmem
    obtain ⟨harank, hane⟩ := List.mem_filter.mp haf
    have hane2 : a.2 ≠ [] := by simpa using hane
    refine ⟨a.2, ?_, hane2, ?_, ?_⟩
    · rw [← heq]
      show (a.1, a.2) ∈ lb.rankings
      rw [Prod.mk.eta]
      exact harank
    · rw [← heq]
      exact List.perm_insertionSort _ _
    · rw [← heq]
      exact List.sorted_insertionSort _ _
  · intro hpos
    have hbound := fun x hx =>
      le_maxPts (iterUsers ((lb.rankings.filter (fun hr => !hr.2.isEmpty)).map
        (fun hr => (hr.1, sortDesc hr.2)))) x hx
    have hatt := maxPts_attained _ hpos
    constructor
    · show (topAux _ (none, 0)).1 = _
      rw [topAux_first_max _ none 0 _ hbound hpos hatt]
    · show (topAux _ (none, 0)).2 = _
      rw [topAux_first_max _ none 0 _ hbound hpos hatt]
  · intro hle
    have hconst : topAux (iterUsers ((lb.rankings.filter
        (fun hr => !hr.2.isEmpty)).map (fun hr => (hr.1, sortDesc hr.2))))
        ((none : Option String), (0 : ℤ)) = (none, 0) :=
      topAux_const _ _ (fun x hx => le_trans (le_maxPts _ x hx) hle)
    constructor
    · show (topAux _ (none, 0)).1 = none
      rw [hconst]
    · show (topAux _ (none, 0)).2 = 0
      rw [hconst]

/-- Witness for C6: the spec example `{H: {"a": 10, "b": 20}}` — one archive
record is appended and the current rankings are cleared. -/
theorem claim_C6_reset_monthly_archive_witness :
    ∃ e : ArchiveEntry,
      (resetMonthly "01-2024"
          ⟨[("H", [("a", 10), ("b", 20)])], []⟩).past_rankings =
        ([] : List ArchiveEntry) ++ [e] ∧
      e.month = "01-2024" ∧
      e.rankings.map (fun hr => hr.1) =
        ((⟨[("H", [("a", 10), ("b", 20)])], []⟩ : LBState).rankings.filter
          (fun hr => !hr.2.isEmpty)).map (fun hr => hr.1) ∧
      (∀ hr ∈ e.rankings, ∃ orig,
        (hr.1, orig) ∈ (⟨[("H", [("a", 10), ("b", 20)])], []⟩ :
          LBState).rankings ∧ orig ≠ [] ∧
        hr.2.Perm orig ∧ hr.2.Sorted (fun a b => b.2 ≤ a.2)) ∧
      (0 < maxPts (iterUsers e.rankings) →
        e.top_user = ((iterUsers e.rankings).find?
            (fun x => decide (maxPts (iterUsers e.rankings) ≤ x.2))).map
          (fun x => x.1) ∧
        e.points = maxPts (iterUsers e.rankings)) ∧
      (maxPts (iterUsers e.rankings) ≤ 0 →
        e.top_user = none ∧ e.points = 0) ∧
      (resetMonthly "01-2024"
        ⟨[("H", [("a", 10), ("b", 20)])], []⟩).rankings = [] ∧
      (∀ hh, getSortedRankings hh (resetMonthly "01-2024"
        ⟨[("H", [("a", 10), ("b", 20)])], []⟩) = []) :=
  claim_C6_reset_monthly_archive "01-2024"
    ⟨[("H", [("a", 10), ("b", 20)])], []⟩
    ⟨("H", [("a", 10), ("b", 20)]), by decide, by decide⟩

/-- Counterexample for C6 as stated: rankings `{"H": {"a": 0}}` are
non-empty, so a record is archived, but because the top-performer scan uses
a strict comparison against an initial value of 0, the archived top user is
`None` — not "the first user encountered at the maximum point value"
(which would be "a"). -/
theorem claim_C6_reset_monthly_archive_counterexample :
    (resetMonthly "01-2024" ⟨[("H", [("a", 0)])], []⟩).past_rankings =
      [⟨"01-2024", [("H", [("a", 0)])], none, 0⟩] ∧
    (none : Option String) ≠ some "a" := by
  refine ⟨by decide, by decide⟩

end Claims

end HomeStreak
